import Mathlib

/-!
Shallow embedding of the `rchan` 4chan-API streaming engine, for checking its
natural-language specification against the code.

Embedded sources:
* `crates/stream/src/worker.rs` — `ThreadCache`, `BoardCache`,
  `BoardWorker::update_cache`, `BoardWorker::update_board`, the `run` loop's
  cycle boundary;
* `crates/api/src/cache.rs` — `CacheInner` (`last_called` / `last_response`
  maps), `CacheInner::cleanup`, `CacheInner::handle_update`;
* `crates/api/src/client.rs` — `Client::new_request`, `Client::get_with_retry`,
  `Client::handle_response`;
* `crates/api/src/rate_limit.rs` — `RateLimiter::rate_limit`;
* `crates/api/src/error.rs` — the `Error` enum;
* `crates/api/src/response.rs` — the `ClientResponse` enum;
* `crates/types/src/post.rs` — `Post`, `Thread`, `ThreadPage`.

Modelling conventions.  Machine integers `i32`/`i64` are modelled as `Int`
(no arithmetic in the embedded code comes near overflow); `u128` millisecond
timestamps are modelled as `Nat`, matching Rust's panicking-on-underflow
subtraction only where the code guards it.  Hash maps are modelled as
association lists together with lookup functions mirroring the map interface;
only entry presence/value semantics are used.  `async` I/O is modelled by
passing the fetch outcome (`Except`) as an explicit oracle argument.  A Rust
run-time panic (`unwrap` of `None`/`Err`) is modelled as `Option.none` of the
whole computation.  Of the many optional JSON fields of `Post`, only the
three the embedded functions inspect (`no`, `time`, `last_modified`) are
kept; the rest are never read by the code under verification.
-/

namespace Rchan

/-- Model of `rchan_types::post::Post` (fields used by the worker only: `no`, `time`,
`last_modified`).  The board threads-summary (`ThreadPage.threads`) reuses
this type, exactly as in the source. -/
structure Post where
  no : Int
  time : Option Int
  last_modified : Option Int
deriving DecidableEq, Repr

/-- Model of `rchan_types::post::ThreadPage`. -/
structure ThreadPage where
  page : Int
  threads : List Post
deriving DecidableEq, Repr

/-- Model of `rchan_types::post::Thread`. -/
structure Thread where
  posts : List Post
deriving DecidableEq, Repr

/-- Model of `ThreadCache` (worker.rs) — the per-thread watermark. -/
structure ThreadCache where
  no : Int
  last_modified : Int
  prev_last_modified : Int
deriving DecidableEq, Repr

/-- Model of `ThreadCache::new(no, last_modified)` — `prev_last_modified` starts at 0. -/
def ThreadCache.new (no last_modified : Int) : ThreadCache :=
  ⟨no, last_modified, 0⟩

/-- Model of `BoardCache` (worker.rs) — watermark map plus the board-level clock. -/
structure BoardCache where
  last_update_sec : Int
  threads : List ThreadCache
deriving DecidableEq, Repr

/-- Lookup in the `HashMap<i32, ThreadCache>` modelled as an association list
keyed by the `no` field (`self.cache.threads.get(&k)`). -/
def lookupThread (cache : List ThreadCache) (k : Int) : Option ThreadCache :=
  cache.find? (fun c => c.no == k)

/-- In-place update of the entry with key `k` (`get_mut` + mutation).  `f` is
always `no`-preserving in this development. -/
def setThread (cache : List ThreadCache) (k : Int) (f : ThreadCache → ThreadCache) :
    List ThreadCache :=
  cache.map (fun c => if c.no == k then f c else c)

/-- The flattened iteration `for page in pages { for thread in &page.threads }`. -/
def threadsOf (pages : List ThreadPage) : List Post :=
  (pages.map ThreadPage.threads).flatten

/-- One iteration of the `update_cache` loop body for one summary entry `t`:
`entry(t.no).or_insert(ThreadCache::new(t.no, 0))`, then compare
`last_modified` and advance the watermark, pushing `t` onto
`modified_threads` when it advanced. -/
def stepThread (st : List ThreadCache × List Post) (t : Post) :
    List ThreadCache × List Post :=
  let base := if (lookupThread st.1 t.no).isSome then st.1 else st.1 ++ [⟨t.no, 0, 0⟩]
  let entry := (lookupThread base t.no).getD ⟨t.no, 0, 0⟩
  let tlm := t.last_modified.getD 0
  if entry.last_modified < tlm then
    (setThread base t.no (fun c => ⟨c.no, tlm, c.last_modified⟩), st.2 ++ [t])
  else (base, st.2)

/-- The watermark the `update_cache` loop body compares `t` against: the
stored entry for `t.no`, or the freshly inserted `ThreadCache::new(t.no, 0)`
when the key is unknown. -/
def entryFor (cache : List ThreadCache) (t : Post) : ThreadCache :=
  (lookupThread cache t.no).getD ⟨t.no, 0, 0⟩

/-- Ordering used by `modified_threads.sort_by(|a, b|
a.last_modified.cmp(&b.last_modified))`: Rust's `Option<i64>` order
(`None` below every `Some`). -/
def optIntLe : Option Int → Option Int → Prop
  | none, _ => True
  | some _, none => False
  | some x, some y => x ≤ y

instance : DecidableRel optIntLe := fun a b =>
  match a, b with
  | none, _ => isTrue trivial
  | some _, none => isFalse (fun h => h)
  | some x, some y => inferInstanceAs (Decidable (x ≤ y))

/-- Comparator of `sort_by` lifted to summary entries. -/
def lmLe (a b : Post) : Prop :=
  optIntLe a.last_modified b.last_modified

instance : DecidableRel lmLe := fun a b =>
  inferInstanceAs (Decidable (optIntLe a.last_modified b.last_modified))

instance : IsTotal Post lmLe where
  total a b := by
    show optIntLe a.last_modified b.last_modified ∨
      optIntLe b.last_modified a.last_modified
    rcases a.last_modified with _ | x
    · exact Or.inl trivial
    · rcases b.last_modified with _ | y
      · exact Or.inr trivial
      · exact Int.le_total x y

instance : IsTrans Post lmLe where
  trans a b c := by
    show optIntLe a.last_modified b.last_modified →
      optIntLe b.last_modified c.last_modified →
      optIntLe a.last_modified c.last_modified
    rcases a.last_modified with _ | x
    · intro _ _
      trivial
    · rcases b.last_modified with _ | y
      · intro h _
        exact h.elim
      · rcases c.last_modified with _ | z
        · intro _ h
          exact h.elim
        · intro h1 h2
          exact le_trans h1 h2

/-- Model of `BoardWorker::update_cache` (worker.rs):
1. retain only watermarks whose `no` still occurs in the summary;
2. fold the loop body over all summary entries;
3. return the new watermark map and the modified list sorted by
   `last_modified` (stable sort, as Rust's `sort_by`). -/
def update_cache (cache : List ThreadCache) (pages : List ThreadPage) :
    List ThreadCache × List Post :=
  let retained := cache.filter
    (fun c => pages.any (fun p => p.threads.any (fun t => t.no == c.no)))
  let res := (threadsOf pages).foldl stepThread (retained, [])
  (res.1, res.2.insertionSort lmLe)

example :
    update_cache [⟨1, 5, 2⟩, ⟨3, 9, 9⟩]
      [⟨0, [⟨1, none, some 9⟩, ⟨2, none, some 3⟩]⟩] =
      ([⟨1, 9, 5⟩, ⟨2, 3, 0⟩], [⟨2, none, some 3⟩, ⟨1, none, some 9⟩]) := by
  decide

-- a fresh thread whose summary `last_modified` is absent or 0 is inserted
-- but NOT marked modified (`0 < 0` is false)
example : update_cache [] [⟨0, [⟨1, none, some 0⟩]⟩] = ([⟨1, 0, 0⟩], []) := by
  decide

/-- Model of the `Error` enum (crates/api/src/error.rs).  `Reqwest` carries the
transport error's message. -/
inductive ApiError
  | Reqwest (msg : String)
  | MaxRetriesExceeded (msg : String)
  | StatusCode (code : String)
  | Stream (msg : String)
  | InvalidResponse
  | NoCachedResponse
deriving DecidableEq, Repr

/-- Per-task post filter of `update_board` (worker.rs):
`thread.posts.iter().filter(|post| post.time.map_or(false, |t| t > cache.prev_last_modified))`. -/
def newPostsFor (thread : Thread) (cache : ThreadCache) : List Post :=
  thread.posts.filter
    (fun p => (p.time.map (fun t => decide (cache.prev_last_modified < t))).getD false)

/-- Watermark snapshot of `update_board` (worker.rs), captured into each
fetch task —
`self.cache.threads.get(&t.no).unwrap_or(&ThreadCache::new(t.no, last_update_sec)).clone()`. -/
def captureFor (threads : List ThreadCache) (last_update_sec : Int) (t : Post) :
    ThreadCache :=
  (lookupThread threads t.no).getD (ThreadCache.new t.no last_update_sec)

/-- One spawned fetch task: on success, the posts it publishes and signal
`None`; on failure, publish nothing and signal `Some(no)` for rollback. -/
def taskResult (fetch : Int → Except ApiError Thread) (cache : ThreadCache) :
    List Post × Option Int :=
  match fetch cache.no with
  | .ok thread => (newPostsFor thread cache, none)
  | .error _ => ([], some cache.no)

/-- Join step of `update_board` (worker.rs), one signal:
`Ok(Some(thread_no)) if thread_no >= 0 => if let Some(entry) = get_mut(..)
{ entry.last_modified = entry.prev_last_modified }`. -/
def applyRollback (cache : List ThreadCache) (sig : Option Int) :
    List ThreadCache :=
  match sig with
  | some k =>
      if 0 ≤ k then
        setThread cache k (fun c => ⟨c.no, c.prev_last_modified, c.prev_last_modified⟩)
      else cache
  | none => cache

/-- Model of `BoardWorker::update_board` as a function of the two I/O oracles: the
threads-summary outcome and the per-thread fetch outcome.  Returns the new
board cache and the concatenation, in spawn order, of the posts the tasks
publish.  (The tasks run concurrently in the source; claims about the cycle
only concern which posts are published and the per-key final watermarks,
both oblivious to the interleaving.  The join processes the signals in spawn
order, as `join_all` preserves the order of the receivers.) -/
def update_board (cache : BoardCache) (now : Int)
    (summary : Except ApiError (List ThreadPage))
    (fetch : Int → Except ApiError Thread) :
    Except ApiError (BoardCache × List Post) :=
  match summary with
  | .error e => .error e
  | .ok pages =>
      let u := update_cache cache.threads pages
      let results := u.2.map (fun t => taskResult fetch (captureFor u.1 cache.last_update_sec t))
      .ok (⟨now, (results.map Prod.snd).foldl applyRollback u.1⟩,
           (results.map Prod.fst).flatten)

/-- Cycle boundary of the `run` loop (worker.rs):
`self.update_board().await.map_err(|e| error!(..)).unwrap()`.
`Result::unwrap` of an `Err` is a run-time panic that kills the worker task:
modelled as `none`. -/
def run_cycle (cache : BoardCache) (now : Int)
    (summary : Except ApiError (List ThreadPage))
    (fetch : Int → Except ApiError Thread) :
    Option (BoardCache × List Post) :=
  match update_board cache now summary fetch with
  | .ok r => some r
  | .error _ => none

/-- Model of the `Endpoint` enum of `crates/api/src/endpoint.rs` (present as
`src/api/endpoint.rs`): the `Endpoint` enum. -/
inductive Endpoint
  | Boards
  | Threads (board : String)
  | Catalog (board : String)
  | Archive (board : String)
  | Thread (board : String) (no : Int)
  | Index (board : String) (page : Int)
deriving DecidableEq, Repr

/-- Model of the `ClientResponse` enum (crates/api/src/response.rs).  The decoded
payload bodies (`Board`, `CatalogPage`, `Index` structs) are never inspected
by the verified functions, so their variants carry the already-modelled
types where available and placeholder payloads otherwise. -/
inductive ClientResponse
  | Boards (payload : List String)
  | Threads (payload : List ThreadPage)
  | Catalog (payload : List String)
  | Archive (payload : List Int)
  | Index (payload : List Post)
  | Thread (payload : Rchan.Thread)
  | NotModified
deriving DecidableEq, Repr

/-- Association-list lookup modelling `HashMap::get`. -/
def lookupA {β : Type} (m : List (Endpoint × β)) (k : Endpoint) : Option β :=
  (m.find? (fun kv => kv.1 == k)).map Prod.snd

/-- Association-list insert modelling `HashMap::insert` (replaces the value
at the key). -/
def insertA {β : Type} (m : List (Endpoint × β)) (k : Endpoint) (v : β) :
    List (Endpoint × β) :=
  (k, v) :: m.filter (fun kv => !(kv.1 == k))

/-- Model of `CacheInner` (crates/api/src/cache.rs) — the response cache's two maps.
Timestamps (`chrono::DateTime<Utc>`) are modelled in whole seconds, the
granularity at which `cleanup` compares them. -/
structure CacheInner where
  last_called : List (Endpoint × Int)
  last_response : List (Endpoint × ClientResponse)
deriving DecidableEq, Repr

/-- Constant `CacheInner::MAX_CACHE_TIME_S = 60 * 60`. -/
def MAX_CACHE_TIME_S : Int := 60 * 60

/-- Model of `CacheInner::cleanup`, verbatim structure: collect the keys whose
`last_called` stamp `v` satisfies
`v.signed_duration_since(now).num_seconds() > MAX_CACHE_TIME_S`
(that is `v - now > 3600`), then retain, in both maps, the keys not
collected. -/
def cleanup (now : Int) (inner : CacheInner) : CacheInner :=
  let entries_to_clean : List Endpoint :=
    (inner.last_called.filter (fun kv => MAX_CACHE_TIME_S < kv.2 - now)).map Prod.fst
  { last_called := inner.last_called.filter (fun kv => !(entries_to_clean.contains kv.1)),
    last_response := inner.last_response.filter (fun kv => !(entries_to_clean.contains kv.1)) }

/-- Model of `CacheInner::handle_update`: stamp `last_called = now` and overwrite the
payload. -/
def handle_update (inner : CacheInner) (endpoint : Endpoint) (now : Int)
    (response : ClientResponse) : CacheInner :=
  { last_called := insertA inner.last_called endpoint now,
    last_response := insertA inner.last_response endpoint response }

/-- HTTP status as discriminated by `Client::handle_response`. -/
inductive HStatus
  | ok
  | notModified
  | other (code : Nat)
deriving DecidableEq, Repr

/-- Model of `Client::handle_response` (client.rs) as a function of the cache state,
the response status, and the outcome of `ClientResponse::parse` on the body.
Returns the client's result together with the cache state after the call;
`none` models the run-time panic (`Option::unwrap` of `None`) in the 304
branch when no payload is cached. -/
def handle_response (cache : CacheInner) (endpoint : Endpoint) (now : Int)
    (status : HStatus) (parsed : Except ApiError ClientResponse) :
    Option (Except ApiError ClientResponse × CacheInner) :=
  match status with
  | .ok =>
      match parsed with
      | .ok p => some (.ok p, handle_update cache endpoint now p)
      | .error e => some (.error e, cache)
  | .notModified =>
      match lookupA cache.last_response endpoint with
      | some r => some (.ok r, cache)
      | none => none
  | .other code => some (.error (.StatusCode (toString code)), cache)

/-- The request built by `Client::new_request`: only the conditional header
matters to the spec.  `fmtRfc2822` stands for
`chrono::DateTime::to_rfc2822`. -/
structure GetRequest where
  if_modified_since : Option String
deriving DecidableEq, Repr

/-- Model of `Client::new_request`: attach `If-Modified-Since` exactly when the cache
has a `last_called` stamp for the endpoint, formatted by `to_rfc2822`. -/
def new_request (cache : CacheInner) (endpoint : Endpoint)
    (fmtRfc2822 : Int → String) : GetRequest :=
  ⟨(lookupA cache.last_called endpoint).map fmtRfc2822⟩

/-- The 404 short-circuit test in `get_with_retry`:
`if let Error::StatusCode(ref code) = e { if code == "404" { .. } }`. -/
def is404 : ApiError → Bool
  | .StatusCode code => code == "404"
  | _ => false

/-- The `get_with_retry` loop from iteration `retries` on, as a function of
the oracle `attempt` giving each attempt's outcome.  Alongside the result it
returns the trace of sleep durations (in seconds): each iteration sleeps
`retries` seconds, then attempts. -/
def getWithRetryAux (attempt : Nat → Except ApiError ClientResponse)
    (maxRetries : Nat) (retries : Nat) :
    Except ApiError ClientResponse × List Nat :=
  match attempt retries with
  | .ok resp => (.ok resp, [retries])
  | .error e =>
      if is404 e then (.error e, [retries])
      else if h : maxRetries < retries + 1 then (.error e, [retries])
      else
        let rest := getWithRetryAux attempt maxRetries (retries + 1)
        (rest.1, retries :: rest.2)
termination_by maxRetries + 1 - retries
decreasing_by omega

/-- Model of `Client::get_with_retry`: the loop started at `retries = 0`. -/
def get_with_retry (attempt : Nat → Except ApiError ClientResponse)
    (maxRetries : Nat) : Except ApiError ClientResponse × List Nat :=
  getWithRetryAux attempt maxRetries 0

/-- Model of the `RateLimiter` state (crates/api/src/rate_limit.rs).  `u128` millisecond
timestamps modelled as `Nat`. -/
structure RateLimiter where
  rate_limit_per_interval : Nat
  interval_duration_ms : Nat
  timestamps : List Nat
deriving DecidableEq, Repr

/-- Model of `RateLimiter::rate_limit` as a function of `now`, returning the new state
and `some sleep` when the call suspends for `sleep` milliseconds (`none`
when it returns immediately).  `timestamps.first().unwrap() - now` is
`headD 0 - now`; the `first().unwrap()` cannot miss because the branch
requires `rate_limit_per_interval ≤ |timestamps|` and the constructor
asserts `rate_limit_per_interval > 0`. -/
def rate_limit (rl : RateLimiter) (now : Nat) : RateLimiter × Option Nat :=
  let ts := rl.timestamps.filter (fun t => now < t)
  if rl.rate_limit_per_interval ≤ ts.length then
    let sleep_duration := ts.headD 0 - now
    ({ rl with timestamps := ts ++ [now + sleep_duration + rl.interval_duration_ms] },
     some sleep_duration)
  else
    ({ rl with timestamps := ts ++ [now + rl.interval_duration_ms] }, none)

/-! ### Lemmas about the watermark association list -/

theorem lookupThread_eq_some_no {cache : List ThreadCache} {k : Int}
    {c : ThreadCache} (h : lookupThread cache k = some c) : c.no = k := by
  have := List.find?_some h
  simpa using this

theorem entryFor_no (cache : List ThreadCache) (t : Post) :
    (entryFor cache t).no = t.no := by
  unfold entryFor
  cases h : lookupThread cache t.no with
  | none => rfl
  | some c => simpa using lookupThread_eq_some_no h

theorem lookupThread_append (c₁ c₂ : List ThreadCache) (k : Int) :
    lookupThread (c₁ ++ c₂) k = (lookupThread c₁ k).or (lookupThread c₂ k) := by
  simp [lookupThread, List.find?_append]

theorem lookupThread_setThread_self (cache : List ThreadCache) (k : Int)
    (f : ThreadCache → ThreadCache) (hf : ∀ c, (f c).no = c.no) :
    lookupThread (setThread cache k f) k = (lookupThread cache k).map f := by
  induction cache with
  | nil => rfl
  | cons c rest ih =>
    show List.find? (fun x => x.no == k)
        ((if c.no == k then f c else c) ::
          List.map (fun x => if x.no == k then f x else x) rest) =
      Option.map f (List.find? (fun x => x.no == k) (c :: rest))
    rw [List.find?_cons, List.find?_cons]
    by_cases hc : c.no = k
    · have hb : (c.no == k) = true := beq_iff_eq.mpr hc
      have hbf : ((f c).no == k) = true := by rw [hf]; exact hb
      simp [hb, hbf]
    · have hb : (c.no == k) = false := beq_eq_false_iff_ne.mpr hc
      simp [hb]
      simpa [lookupThread, setThread] using ih

theorem lookupThread_setThread_other (cache : List ThreadCache) (k k' : Int)
    (f : ThreadCache → ThreadCache) (hf : ∀ c, (f c).no = c.no)
    (hne : k' ≠ k) :
    lookupThread (setThread cache k f) k' = lookupThread cache k' := by
  induction cache with
  | nil => rfl
  | cons c rest ih =>
    show List.find? (fun x => x.no == k')
        ((if c.no == k then f c else c) ::
          List.map (fun x => if x.no == k then f x else x) rest) =
      List.find? (fun x => x.no == k') (c :: rest)
    rw [List.find?_cons, List.find?_cons]
    by_cases hc : c.no = k
    · have hb : (c.no == k) = true := beq_iff_eq.mpr hc
      have h2 : ((f c).no == k') = false := by
        rw [hf, hc]; exact beq_eq_false_iff_ne.mpr (Ne.symm hne)
      have h3 : (c.no == k') = false := by
        rw [hc]; exact beq_eq_false_iff_ne.mpr (Ne.symm hne)
      simp [hb, h2, h3]
      simpa [lookupThread, setThread] using ih
    · have hb : (c.no == k) = false := beq_eq_false_iff_ne.mpr hc
      by_cases hc' : c.no = k'
      · have hb' : (c.no == k') = true := beq_iff_eq.mpr hc'
        simp [hb, hb']
      · have hb' : (c.no == k') = false := beq_eq_false_iff_ne.mpr hc'
        simp [hb, hb']
        simpa [lookupThread, setThread] using ih

/-! ### Lemmas about one `update_cache` loop iteration -/

theorem stepThread_base_lookup (a : List ThreadCache) (t : Post) :
    lookupThread (if (lookupThread a t.no).isSome then a else a ++ [⟨t.no, 0, 0⟩])
      t.no = some (entryFor a t) := by
  cases h : lookupThread a t.no with
  | some c => simp [h, entryFor]
  | none =>
    simp only [h, Option.isSome_none, Bool.false_eq_true, if_false]
    rw [lookupThread_append, h, Option.none_or]
    unfold entryFor
    rw [h]
    simp [lookupThread]

/-- Unfolding of `stepThread` with the loop entry replaced by `entryFor`. -/
theorem stepThread_eq (a : List ThreadCache) (m : List Post) (t : Post) :
    stepThread (a, m) t =
      (if (entryFor a t).last_modified < t.last_modified.getD 0 then
        (setThread (if (lookupThread a t.no).isSome then a else a ++ [⟨t.no, 0, 0⟩])
          t.no (fun c => ⟨c.no, t.last_modified.getD 0, c.last_modified⟩), m ++ [t])
      else (if (lookupThread a t.no).isSome then a else a ++ [⟨t.no, 0, 0⟩], m)) := by
  unfold stepThread
  simp only [stepThread_base_lookup, Option.getD_some]

theorem stepThread_fst_lookup_self (a : List ThreadCache) (m : List Post) (t : Post) :
    lookupThread (stepThread (a, m) t).1 t.no =
      some (if (entryFor a t).last_modified < t.last_modified.getD 0
            then ⟨t.no, t.last_modified.getD 0, (entryFor a t).last_modified⟩
            else entryFor a t) := by
  rw [stepThread_eq]
  by_cases hm : (entryFor a t).last_modified < t.last_modified.getD 0
  · rw [if_pos hm, if_pos hm]
    have hf : ∀ c : ThreadCache,
        ((fun c : ThreadCache => (⟨c.no, t.last_modified.getD 0, c.last_modified⟩ : ThreadCache)) c).no = c.no :=
      fun _ => rfl
    rw [lookupThread_setThread_self _ _ _ hf, stepThread_base_lookup]
    simp [entryFor_no a t]
  · rw [if_neg hm, if_neg hm]
    exact stepThread_base_lookup a t

theorem stepThread_fst_lookup_other (a : List ThreadCache) (m : List Post)
    (t : Post) (k : Int) (hk : k ≠ t.no) :
    lookupThread (stepThread (a, m) t).1 k = lookupThread a k := by
  have hbase : lookupThread
      (if (lookupThread a t.no).isSome then a else a ++ [⟨t.no, 0, 0⟩]) k =
      lookupThread a k := by
    split
    · rfl
    · rw [lookupThread_append]
      have : lookupThread [(⟨t.no, 0, 0⟩ : ThreadCache)] k = none := by
        simp [lookupThread, Ne.symm hk]
      rw [this, Option.or_none]
  rw [stepThread_eq]
  split
  · have hf : ∀ c : ThreadCache,
        ((fun c : ThreadCache => (⟨c.no, t.last_modified.getD 0, c.last_modified⟩ : ThreadCache)) c).no = c.no :=
      fun _ => rfl
    simpa [lookupThread_setThread_other _ _ _ _ hf hk] using hbase
  · exact hbase

theorem stepThread_fst_isSome (a : List ThreadCache) (m : List Post)
    (t : Post) (k : Int) :
    (lookupThread (stepThread (a, m) t).1 k).isSome ↔
      (lookupThread a k).isSome ∨ k = t.no := by
  by_cases hk : k = t.no
  · subst hk
    simp [stepThread_fst_lookup_self a m t]
  · simp [stepThread_fst_lookup_other a m t k hk, hk]

theorem stepThread_fst_of_snd (a : List ThreadCache) (m m' : List Post) (t : Post) :
    (stepThread (a, m) t).1 = (stepThread (a, m') t).1 := by
  rw [stepThread_eq, stepThread_eq]
  split <;> rfl

theorem stepThread_snd (a : List ThreadCache) (m : List Post) (t : Post) :
    (stepThread (a, m) t).2 = m ++ (stepThread (a, []) t).2 := by
  rw [stepThread_eq, stepThread_eq]
  split <;> simp

/-! ### Lemmas about the `update_cache` fold -/

theorem foldl_fst_of_snd (ts : List Post) (a : List ThreadCache)
    (m m' : List Post) :
    (ts.foldl stepThread (a, m)).1 = (ts.foldl stepThread (a, m')).1 := by
  induction ts generalizing a m m' with
  | nil => rfl
  | cons t ts ih =>
    simp only [List.foldl_cons]
    rcases hst : stepThread (a, m) t with ⟨b, m₂⟩
    rcases hst' : stepThread (a, m') t with ⟨b', m₂'⟩
    have hb : b = b' := by
      have := stepThread_fst_of_snd a m m' t
      rw [hst, hst'] at this
      exact this
    rw [hb]
    exact ih b' m₂ m₂'

theorem foldl_snd_append (ts : List Post) (a : List ThreadCache) (m : List Post) :
    (ts.foldl stepThread (a, m)).2 = m ++ (ts.foldl stepThread (a, [])).2 := by
  induction ts generalizing a m with
  | nil => simp
  | cons t ts ih =>
    simp only [List.foldl_cons]
    rcases hst : stepThread (a, []) t with ⟨b, d⟩
    have h1 : stepThread (a, m) t = (b, m ++ d) := by
      have hfst := stepThread_fst_of_snd a m ([] : List Post) t
      have hsnd := stepThread_snd a m t
      rw [hst] at hfst hsnd
      exact Prod.ext hfst hsnd
    rw [h1, ih b (m ++ d), ih b d, List.append_assoc]

theorem stepThread_snd_nil (a : List ThreadCache) (t : Post) :
    (stepThread (a, ([] : List Post)) t).2 =
      if (entryFor a t).last_modified < t.last_modified.getD 0 then [t] else [] := by
  rw [stepThread_eq]
  split <;> rfl

theorem foldl_lookup_of_not_mem (ts : List Post) (a : List ThreadCache)
    (m : List Post) (k : Int) (hk : ∀ t ∈ ts, t.no ≠ k) :
    lookupThread (ts.foldl stepThread (a, m)).1 k = lookupThread a k := by
  induction ts generalizing a m with
  | nil => rfl
  | cons t ts ih =>
    simp only [List.foldl_cons]
    rcases hst : stepThread (a, m) t with ⟨b, m₂⟩
    have hb : lookupThread b k = lookupThread a k := by
      have := stepThread_fst_lookup_other a m t k
        (Ne.symm (hk t (List.mem_cons_self t ts)))
      rw [hst] at this
      exact this
    rw [ih b m₂ (fun s hs => hk s (List.mem_cons_of_mem t hs)), hb]

theorem foldl_lookup_isSome (ts : List Post) (a : List ThreadCache)
    (m : List Post) (k : Int) :
    (lookupThread (ts.foldl stepThread (a, m)).1 k).isSome ↔
      (lookupThread a k).isSome ∨ k ∈ ts.map Post.no := by
  induction ts generalizing a m with
  | nil => simp
  | cons t ts ih =>
    simp only [List.foldl_cons, List.map_cons, List.mem_cons]
    rcases hst : stepThread (a, m) t with ⟨b, m₂⟩
    have hstep := stepThread_fst_isSome a m t k
    rw [hst] at hstep
    rw [ih b m₂, hstep]
    tauto

theorem foldl_mods_subset (ts : List Post) (a : List ThreadCache)
    (m : List Post) :
    ∀ x ∈ (ts.foldl stepThread (a, m)).2, x ∈ m ∨ x ∈ ts := by
  induction ts generalizing a m with
  | nil => intro x hx; exact Or.inl hx
  | cons t ts ih =>
    intro x hx
    simp only [List.foldl_cons] at hx
    rcases hst : stepThread (a, m) t with ⟨b, m₂⟩
    rw [hst] at hx
    rcases ih b m₂ x hx with hm | hts
    · have hm' : x ∈ (stepThread (a, m) t).2 := by rw [hst]; exact hm
      rw [stepThread_snd a m t, stepThread_snd_nil] at hm'
      rcases List.mem_append.mp hm' with h | h
      · exact Or.inl h
      · split at h
        · exact Or.inr (List.mem_cons.mpr (Or.inl (List.mem_singleton.mp h)))
        · cases h
    · exact Or.inr (List.mem_cons_of_mem t hts)

/-- Full characterisation of one `update_cache` fold for one summary entry
`t`, assuming thread numbers occur at most once in the summary: the final
watermark for `t.no` and membership of `t` in the accumulated modified
list. -/
theorem foldl_char (ts : List Post) (a : List ThreadCache) (m : List Post)
    (t : Post) (hN : (ts.map Post.no).Nodup) (ht : t ∈ ts) :
    lookupThread (ts.foldl stepThread (a, m)).1 t.no =
      some (if (entryFor a t).last_modified < t.last_modified.getD 0
            then ⟨t.no, t.last_modified.getD 0, (entryFor a t).last_modified⟩
            else entryFor a t) ∧
    (t ∈ (ts.foldl stepThread (a, m)).2 ↔
      t ∈ m ∨ (entryFor a t).last_modified < t.last_modified.getD 0) := by
  induction ts generalizing a m with
  | nil => cases ht
  | cons t' ts ih =>
    simp only [List.map_cons, List.nodup_cons] at hN
    simp only [List.foldl_cons]
    rcases List.mem_cons.mp ht with rfl | hmem
    · -- `t` is the entry processed first; the tail never touches `t.no`.
      have hrest : ∀ s ∈ ts, s.no ≠ t.no := by
        intro s hs h
        exact hN.1 (h ▸ List.mem_map_of_mem Post.no hs)
      rcases hst : stepThread (a, m) t with ⟨b, m₂⟩
      constructor
      · have hlook := stepThread_fst_lookup_self a m t
        rw [hst] at hlook
        rw [foldl_lookup_of_not_mem ts b m₂ t.no hrest, hlook]
      · have hsnd : m₂ = m ++ (stepThread (a, []) t).2 := by
          have h := stepThread_snd a m t
          rw [hst] at h
          exact h
        rw [foldl_snd_append ts b m₂]
        have hnotin : t ∉ (ts.foldl stepThread (b, [])).2 := by
          intro hmem
          rcases foldl_mods_subset ts b [] t hmem with h | h
          · cases h
          · exact hrest t h rfl
        have hm₂ : t ∈ m₂ ↔ t ∈ m ∨
            (entryFor a t).last_modified < t.last_modified.getD 0 := by
          rw [hsnd, stepThread_snd_nil]
          split
          · simp_all
          · simp_all
        rw [List.mem_append]
        constructor
        · intro h
          rcases h with h | h
          · exact hm₂.mp h
          · exact absurd h hnotin
        · intro h
          exact Or.inl (hm₂.mpr h)
    · -- `t` sits in the tail; the first step never touches `t.no`.
      have hne : t.no ≠ t'.no := by
        intro h
        exact hN.1 (h ▸ List.mem_map_of_mem Post.no hmem)
      rcases hst : stepThread (a, m) t' with ⟨b, m₂⟩
      have hb : lookupThread b t.no = lookupThread a t.no := by
        have := stepThread_fst_lookup_other a m t' t.no hne
        rw [hst] at this
        exact this
      have hentry : entryFor b t = entryFor a t := by
        unfold entryFor
        rw [hb]
      have hih := ih b m₂ hN.2 hmem
      rw [hentry] at hih
      refine ⟨hih.1, ?_⟩
      rw [hih.2]
      have hm₂ : t ∈ m₂ ↔ t ∈ m := by
        have hsnd : m₂ = m ++ (stepThread (a, []) t').2 := by
          have h := stepThread_snd a m t'
          rw [hst] at h
          exact h
        have htne : t ≠ t' := fun h => hne (h ▸ rfl)
        rw [hsnd, stepThread_snd_nil]
        split
        · simp [htne]
        · simp
      rw [hm₂]

/-! ### The retain step and the full `update_cache` characterisation -/

theorem lookupThread_filter_of_mem (cache : List ThreadCache)
    (p : ThreadCache → Bool) (k : Int)
    (hp : ∀ c : ThreadCache, c.no = k → p c = true) :
    lookupThread (cache.filter p) k = lookupThread cache k := by
  induction cache with
  | nil => rfl
  | cons c rest ih =>
    rw [List.filter_cons]
    by_cases hc : c.no = k
    · rw [hp c hc]
      show lookupThread (c :: rest.filter p) k = lookupThread (c :: rest) k
      unfold lookupThread
      rw [List.find?_cons, List.find?_cons, beq_iff_eq.mpr hc]
    · have hb : (c.no == k) = false := beq_eq_false_iff_ne.mpr hc
      cases hpc : p c
      · simp only [Bool.false_eq_true, if_false]
        rw [ih]
        show lookupThread rest k = lookupThread (c :: rest) k
        unfold lookupThread
        rw [List.find?_cons, hb]
      · simp only [if_true]
        show lookupThread (c :: rest.filter p) k = lookupThread (c :: rest) k
        unfold lookupThread
        rw [List.find?_cons, List.find?_cons, hb]
        exact ih

theorem lookupThread_filter_isSome (cache : List ThreadCache)
    (p : ThreadCache → Bool) (k : Int)
    (h : (lookupThread (cache.filter p) k).isSome) :
    ∃ c, c ∈ cache ∧ c.no = k ∧ p c = true := by
  rcases Option.isSome_iff_exists.mp h with ⟨c, hc⟩
  have h1 := List.mem_of_find?_eq_some hc
  have h2 := List.find?_some hc
  rcases List.mem_filter.mp h1 with ⟨hcc, hcp⟩
  exact ⟨c, hcc, by simpa using h2, hcp⟩

theorem retain_pred_iff (pages : List ThreadPage) (c : ThreadCache) :
    (pages.any (fun p => p.threads.any (fun t => t.no == c.no)) = true) ↔
      c.no ∈ (threadsOf pages).map Post.no := by
  simp only [threadsOf, List.any_eq_true, List.mem_map, List.mem_flatten,
    beq_iff_eq]
  constructor
  · rintro ⟨p, hp, t, ht, hno⟩
    exact ⟨t, ⟨p.threads, ⟨p, hp, rfl⟩, ht⟩, hno⟩
  · rintro ⟨t, ⟨l, ⟨p, hp, rfl⟩, ht⟩, hno⟩
    exact ⟨p, hp, t, ht, hno⟩

/-- Full functional characterisation of `update_cache`, assuming each thread
number occurs at most once in the summary (true of a board summary):

* the resulting watermark key set is exactly the summary's thread-number set
  (new keys inserted, keys that fell off the board evicted);
* the returned modified list is sorted ascending by `last_modified`;
* per summary entry `t`: the final watermark, and membership of `t` in the
  modified list, are decided by comparing the stored (or freshly inserted)
  watermark against `t.last_modified.unwrap_or(0)`;
* the modified list only contains summary entries. -/
theorem update_cache_char (cache : List ThreadCache) (pages : List ThreadPage)
    (hN : ((threadsOf pages).map Post.no).Nodup) :
    (∀ k, (lookupThread (update_cache cache pages).1 k).isSome ↔
        k ∈ (threadsOf pages).map Post.no) ∧
    List.Sorted lmLe (update_cache cache pages).2 ∧
    (∀ t ∈ threadsOf pages,
      lookupThread (update_cache cache pages).1 t.no =
        some (if (entryFor cache t).last_modified < t.last_modified.getD 0
              then ⟨t.no, t.last_modified.getD 0, (entryFor cache t).last_modified⟩
              else entryFor cache t) ∧
      (t ∈ (update_cache cache pages).2 ↔
        (entryFor cache t).last_modified < t.last_modified.getD 0)) ∧
    (∀ t ∈ (update_cache cache pages).2, t ∈ threadsOf pages) := by
  have hres : update_cache cache pages =
      (((threadsOf pages).foldl stepThread
          (cache.filter (fun c => pages.any (fun p => p.threads.any (fun t => t.no == c.no))), [])).1,
        ((threadsOf pages).foldl stepThread
          (cache.filter (fun c => pages.any (fun p => p.threads.any (fun t => t.no == c.no))), [])).2.insertionSort lmLe) :=
    rfl
  refine ⟨?_, ?_, ?_, ?_⟩
  · intro k
    rw [hres]
    dsimp only
    rw [foldl_lookup_isSome]
    constructor
    · rintro (h | h)
      · rcases lookupThread_filter_isSome _ _ _ h with ⟨c, _, hck, hpc⟩
        have hmem := (retain_pred_iff pages c).mp hpc
        rwa [hck] at hmem
      · exact h
    · intro h
      exact Or.inr h
  · rw [hres]
    exact List.sorted_insertionSort lmLe _
  · intro t ht
    have hret : lookupThread
        (cache.filter (fun c => pages.any (fun p => p.threads.any (fun t => t.no == c.no))))
        t.no = lookupThread cache t.no := by
      refine lookupThread_filter_of_mem _ _ _ (fun c hck => ?_)
      refine (retain_pred_iff pages c).mpr ?_
      rw [hck]
      exact List.mem_map_of_mem Post.no ht
    have hentry : entryFor
        (cache.filter (fun c => pages.any (fun p => p.threads.any (fun t => t.no == c.no)))) t =
        entryFor cache t := by
      unfold entryFor
      rw [hret]
    have hchar := foldl_char (threadsOf pages)
      (cache.filter (fun c => pages.any (fun p => p.threads.any (fun t => t.no == c.no))))
      [] t hN ht
    rw [hentry] at hchar
    constructor
    · rw [hres]
      exact hchar.1
    · rw [hres]
      dsimp only
      rw [List.mem_insertionSort, hchar.2]
      simp
  · intro t ht
    rw [hres] at ht
    dsimp only at ht
    rw [List.mem_insertionSort] at ht
    rcases foldl_mods_subset _ _ _ t ht with h | h
    · cases h
    · exact h

/-! ### Claim C1 -/

/-- C1 (amended).  For every summary whose thread numbers are distinct:
the watermark key set afterwards equals the summary's thread-number set
(fresh keys inserted, stale keys evicted); the returned modified list is
sorted ascending by `last_modified` and contains only summary entries; a
thread unknown to the watermark map gets a fresh watermark
`{lastModified = 0, prevLastModified = 0}` and is marked modified if and
only if its summary `last_modified` (absent read as 0) is strictly positive
(not unconditionally, as claimed); a known thread has its watermark advanced
(displacing `lastModified` into `prevLastModified`) and is marked modified
if and only if its summary `last_modified` is strictly greater than the
stored `lastModified`. -/
theorem update_cache_spec (cache : List ThreadCache) (pages : List ThreadPage)
    (hN : ((threadsOf pages).map Post.no).Nodup) :
    (∀ k, (lookupThread (update_cache cache pages).1 k).isSome ↔
        k ∈ (threadsOf pages).map Post.no) ∧
    List.Sorted lmLe (update_cache cache pages).2 ∧
    (∀ t ∈ threadsOf pages,
      (lookupThread cache t.no = none →
        lookupThread (update_cache cache pages).1 t.no =
          some (if 0 < t.last_modified.getD 0
                then ⟨t.no, t.last_modified.getD 0, 0⟩ else ⟨t.no, 0, 0⟩) ∧
        (t ∈ (update_cache cache pages).2 ↔ 0 < t.last_modified.getD 0)) ∧
      (∀ e, lookupThread cache t.no = some e →
        lookupThread (update_cache cache pages).1 t.no =
          some (if e.last_modified < t.last_modified.getD 0
                then ⟨t.no, t.last_modified.getD 0, e.last_modified⟩ else e) ∧
        (t ∈ (update_cache cache pages).2 ↔
          e.last_modified < t.last_modified.getD 0))) ∧
    (∀ t ∈ (update_cache cache pages).2, t ∈ threadsOf pages) := by
  rcases update_cache_char cache pages hN with ⟨hkeys, hsorted, hchar, hsub⟩
  refine ⟨hkeys, hsorted, ?_, hsub⟩
  intro t ht
  rcases hchar t ht with ⟨hlook, hmem⟩
  constructor
  · intro hnone
    have he : entryFor cache t = ⟨t.no, 0, 0⟩ := by
      unfold entryFor
      rw [hnone]
      rfl
    rw [he] at hlook hmem
    exact ⟨hlook, hmem⟩
  · intro e hsome
    have he : entryFor cache t = e := by
      unfold entryFor
      rw [hsome]
      rfl
    rw [he] at hlook hmem
    refine ⟨?_, hmem⟩
    have hno : e.no = t.no := lookupThread_eq_some_no hsome
    rcases e with ⟨eno, elm, eprev⟩
    simp only at hno
    rw [hno] at hlook ⊢
    exact hlook

/-- C1 counterexample to the claim as stated: with an empty watermark map
and a summary containing the single fresh thread `1` with
`last_modified = Some 0`, the fresh watermark `{no = 1, 0, 0}` is inserted
but the thread is NOT marked modified (`0 < 0` fails), whereas the claim
says a fresh thread is always marked modified. -/
theorem update_cache_cx :
    (⟨1, none, some 0⟩ : Post) ∈ threadsOf [⟨0, [⟨1, none, some 0⟩]⟩] ∧
    lookupThread ([] : List ThreadCache) 1 = none ∧
    (update_cache [] [⟨0, [⟨1, none, some 0⟩]⟩]).1 = [⟨1, 0, 0⟩] ∧
    (update_cache [] [⟨0, [⟨1, none, some 0⟩]⟩]).2 = [] := by
  decide

/-- Witness for `update_cache_spec` at a concrete input. -/
theorem update_cache_spec_witness :
    ((threadsOf [⟨0, [⟨1, none, some 9⟩, ⟨2, none, some 3⟩]⟩]).map Post.no).Nodup ∧
    ((∀ k, (lookupThread (update_cache [⟨1, 5, 2⟩] [⟨0, [⟨1, none, some 9⟩, ⟨2, none, some 3⟩]⟩]).1 k).isSome ↔
        k ∈ (threadsOf [⟨0, [⟨1, none, some 9⟩, ⟨2, none, some 3⟩]⟩]).map Post.no) ∧
    List.Sorted lmLe (update_cache [⟨1, 5, 2⟩] [⟨0, [⟨1, none, some 9⟩, ⟨2, none, some 3⟩]⟩]).2 ∧
    (∀ t ∈ threadsOf [⟨0, [⟨1, none, some 9⟩, ⟨2, none, some 3⟩]⟩],
      (lookupThread [⟨1, 5, 2⟩] t.no = none →
        lookupThread (update_cache [⟨1, 5, 2⟩] [⟨0, [⟨1, none, some 9⟩, ⟨2, none, some 3⟩]⟩]).1 t.no =
          some (if 0 < t.last_modified.getD 0
                then ⟨t.no, t.last_modified.getD 0, 0⟩ else ⟨t.no, 0, 0⟩) ∧
        (t ∈ (update_cache [⟨1, 5, 2⟩] [⟨0, [⟨1, none, some 9⟩, ⟨2, none, some 3⟩]⟩]).2 ↔
          0 < t.last_modified.getD 0)) ∧
      (∀ e, lookupThread [⟨1, 5, 2⟩] t.no = some e →
        lookupThread (update_cache [⟨1, 5, 2⟩] [⟨0, [⟨1, none, some 9⟩, ⟨2, none, some 3⟩]⟩]).1 t.no =
          some (if e.last_modified < t.last_modified.getD 0
                then ⟨t.no, t.last_modified.getD 0, e.last_modified⟩ else e) ∧
        (t ∈ (update_cache [⟨1, 5, 2⟩] [⟨0, [⟨1, none, some 9⟩, ⟨2, none, some 3⟩]⟩]).2 ↔
          e.last_modified < t.last_modified.getD 0))) ∧
    (∀ t ∈ (update_cache [⟨1, 5, 2⟩] [⟨0, [⟨1, none, some 9⟩, ⟨2, none, some 3⟩]⟩]).2,
      t ∈ threadsOf [⟨0, [⟨1, none, some 9⟩, ⟨2, none, some 3⟩]⟩])) :=
  ⟨by decide, update_cache_spec [⟨1, 5, 2⟩] [⟨0, [⟨1, none, some 9⟩, ⟨2, none, some 3⟩]⟩] (by decide)⟩

/-! ### Rollback lemmas (the join step of `update_board`) -/

theorem applyRollback_lookup_other (c : List ThreadCache) (sig : Option Int)
    (k : Int) (hk : sig ≠ some k) :
    lookupThread (applyRollback c sig) k = lookupThread c k := by
  cases sig with
  | none => rfl
  | some j =>
    have hj : j ≠ k := fun h => hk (h ▸ rfl)
    show lookupThread
        (if 0 ≤ j then
          setThread c j (fun c => ⟨c.no, c.prev_last_modified, c.prev_last_modified⟩)
        else c) k = lookupThread c k
    split
    · exact lookupThread_setThread_other c j k
        (fun c => ⟨c.no, c.prev_last_modified, c.prev_last_modified⟩)
        (fun _ => rfl) (Ne.symm hj)
    · rfl

theorem applyRollback_lookup_self (c : List ThreadCache) (k : Int)
    (e : ThreadCache) (hpos : 0 ≤ k) (h : lookupThread c k = some e) :
    lookupThread (applyRollback c (some k)) k =
      some ⟨e.no, e.prev_last_modified, e.prev_last_modified⟩ := by
  show lookupThread
      (if 0 ≤ k then
        setThread c k (fun c => ⟨c.no, c.prev_last_modified, c.prev_last_modified⟩)
      else c) k = _
  rw [if_pos hpos, lookupThread_setThread_self c k
    (fun c => ⟨c.no, c.prev_last_modified, c.prev_last_modified⟩) (fun _ => rfl), h]
  rfl

theorem rollback_fold_not_mem (sigs : List (Option Int)) (c : List ThreadCache)
    (k : Int) (h : some k ∉ sigs) :
    lookupThread (sigs.foldl applyRollback c) k = lookupThread c k := by
  induction sigs generalizing c with
  | nil => rfl
  | cons s rest ih =>
    have hs : s ≠ some k := fun hh => h (hh ▸ List.mem_cons_self s rest)
    have hr : some k ∉ rest := fun hh => h (List.mem_cons_of_mem s hh)
    rw [List.foldl_cons, ih (applyRollback c s) hr,
      applyRollback_lookup_other c s k hs]

theorem rollback_fold_mem (sigs : List (Option Int)) (c : List ThreadCache)
    (k : Int) (e : ThreadCache) (hpos : 0 ≤ k) (hmem : some k ∈ sigs)
    (h : lookupThread c k = some e) :
    lookupThread (sigs.foldl applyRollback c) k =
      some ⟨e.no, e.prev_last_modified, e.prev_last_modified⟩ := by
  induction sigs generalizing c e with
  | nil => cases hmem
  | cons s rest ih =>
    rw [List.foldl_cons]
    by_cases hs : s = some k
    · subst hs
      have h1 := applyRollback_lookup_self c k e hpos h
      by_cases hr : some k ∈ rest
      · have := ih (applyRollback c (some k))
          ⟨e.no, e.prev_last_modified, e.prev_last_modified⟩ hr h1
        simpa using this
      · rw [rollback_fold_not_mem rest _ k hr, h1]
    · have hlook : lookupThread (applyRollback c s) k = some e := by
        rw [applyRollback_lookup_other c s k hs, h]
      have hmem' : some k ∈ rest := by
        rcases List.mem_cons.mp hmem with h' | h'
        · exact absurd h'.symm hs
        · exact h'
      exact ih (applyRollback c s) e hmem' hlook

/-! ### Claim C2 -/

/-- C2 (amended).  In a polling cycle over summary `pages` (distinct thread
numbers), for every modified thread `t` whose full-thread fetch fails and
whose thread number is non-negative: the thread's fetch task publishes no
posts and signals rollback; and at the cycle's join step the thread's
watermark `lastModified` is set back to its `prevLastModified` (the value it
held before this cycle's advance), which is strictly below the summary's
`last_modified`, so that the same summary in the next cycle classifies the
thread as modified again.  (The source's join step ignores rollback signals
for negative thread numbers — `Ok(Some(thread_no)) if thread_no >= 0` — so
the claim's unconditional rollback needs the non-negativity proviso.) -/
theorem update_board_rollback (cache : BoardCache) (now : Int)
    (pages : List ThreadPage) (fetch : Int → Except ApiError Thread)
    (t : Post) (err : ApiError)
    (hN : ((threadsOf pages).map Post.no).Nodup)
    (ht : t ∈ (update_cache cache.threads pages).2)
    (hfail : fetch t.no = .error err)
    (hpos : 0 ≤ t.no) :
    taskResult fetch
      (captureFor (update_cache cache.threads pages).1 cache.last_update_sec t) =
      ([], some t.no) ∧
    ∀ bc pub, update_board cache now (.ok pages) fetch = .ok (bc, pub) →
      pub = (((update_cache cache.threads pages).2.map (fun s =>
          taskResult fetch
            (captureFor (update_cache cache.threads pages).1 cache.last_update_sec s))).map
          Prod.fst).flatten ∧
      bc.last_update_sec = now ∧
      lookupThread bc.threads t.no =
        some ⟨t.no, (entryFor cache.threads t).last_modified,
              (entryFor cache.threads t).last_modified⟩ ∧
      (entryFor cache.threads t).last_modified < t.last_modified.getD 0 ∧
      t ∈ (update_cache bc.threads pages).2 := by
  rcases update_cache_char cache.threads pages hN with ⟨-, -, hchar, hsub⟩
  have htTh : t ∈ threadsOf pages := hsub t ht
  rcases hchar t htTh with ⟨hlook, hmemiff⟩
  have hcond : (entryFor cache.threads t).last_modified < t.last_modified.getD 0 :=
    hmemiff.mp ht
  rw [if_pos hcond] at hlook
  have hcap : captureFor (update_cache cache.threads pages).1 cache.last_update_sec t =
      ⟨t.no, t.last_modified.getD 0, (entryFor cache.threads t).last_modified⟩ := by
    unfold captureFor
    rw [hlook]
    rfl
  have hTask : taskResult fetch
      ⟨t.no, t.last_modified.getD 0, (entryFor cache.threads t).last_modified⟩ =
      ([], some t.no) := by
    unfold taskResult
    rw [hfail]
  refine ⟨by rw [hcap]; exact hTask, ?_⟩
  intro bc pub hub
  have hub' : update_board cache now (.ok pages) fetch =
      .ok (⟨now, ((((update_cache cache.threads pages).2.map (fun s =>
            taskResult fetch
              (captureFor (update_cache cache.threads pages).1 cache.last_update_sec s))).map
            Prod.snd).foldl applyRollback (update_cache cache.threads pages).1)⟩,
        (((update_cache cache.threads pages).2.map (fun s =>
            taskResult fetch
              (captureFor (update_cache cache.threads pages).1 cache.last_update_sec s))).map
            Prod.fst).flatten) := rfl
  rw [hub'] at hub
  have hpair := Except.ok.inj hub
  have hbc : bc = ⟨now, ((((update_cache cache.threads pages).2.map (fun s =>
        taskResult fetch
          (captureFor (update_cache cache.threads pages).1 cache.last_update_sec s))).map
        Prod.snd).foldl applyRollback (update_cache cache.threads pages).1)⟩ :=
    (Prod.ext_iff.mp hpair).1.symm
  have hpub := (Prod.ext_iff.mp hpair).2.symm
  have hsig : some t.no ∈ ((update_cache cache.threads pages).2.map (fun s =>
      taskResult fetch
        (captureFor (update_cache cache.threads pages).1 cache.last_update_sec s))).map
      Prod.snd := by
    have h1 : taskResult fetch
        (captureFor (update_cache cache.threads pages).1 cache.last_update_sec t) ∈
        (update_cache cache.threads pages).2.map (fun s =>
          taskResult fetch
            (captureFor (update_cache cache.threads pages).1 cache.last_update_sec s)) :=
      List.mem_map_of_mem _ ht
    have h2 := List.mem_map_of_mem Prod.snd h1
    rw [hcap, hTask] at h2
    simpa using h2
  have hroll := rollback_fold_mem
    (((update_cache cache.threads pages).2.map (fun s =>
        taskResult fetch
          (captureFor (update_cache cache.threads pages).1 cache.last_update_sec s))).map
      Prod.snd)
    (update_cache cache.threads pages).1 t.no
    ⟨t.no, t.last_modified.getD 0, (entryFor cache.threads t).last_modified⟩
    hpos hsig hlook
  have hlookbc : lookupThread bc.threads t.no =
      some ⟨t.no, (entryFor cache.threads t).last_modified,
            (entryFor cache.threads t).last_modified⟩ := by
    rw [hbc]
    simpa using hroll
  refine ⟨hpub, by rw [hbc], hlookbc, hcond, ?_⟩
  rcases update_cache_char bc.threads pages hN with ⟨-, -, hchar', -⟩
  rcases hchar' t htTh with ⟨-, hmemiff'⟩
  have hentry' : entryFor bc.threads t =
      ⟨t.no, (entryFor cache.threads t).last_modified,
        (entryFor cache.threads t).last_modified⟩ := by
    unfold entryFor
    rw [hlookbc]
    rfl
  rw [hmemiff', hentry']
  exact hcond

/-- C2 counterexample to the claim as stated: thread `-1` (negative number,
as nothing in the embedded data forbids it) is fresh with summary
`last_modified = Some 5`, so its watermark advances to `5`; its fetch fails,
but the join step's `thread_no >= 0` guard drops the rollback signal, and
the watermark stays at `5` instead of reverting to `0`. -/
theorem update_board_rollback_cx :
    (update_cache [] [⟨0, [⟨-1, none, some 5⟩]⟩]).2 = [⟨-1, none, some 5⟩] ∧
    update_board ⟨0, []⟩ 7 (.ok [⟨0, [⟨-1, none, some 5⟩]⟩])
        (fun _ => .error .InvalidResponse) =
      .ok (⟨7, [⟨-1, 5, 0⟩]⟩, []) := by
  constructor
  · decide
  · rfl

/-- Witness for `update_board_rollback` at a concrete input: board cache
with watermark `{no = 1, lastModified = 5, prevLastModified = 2}`, summary
raising thread 1 to 9, failing fetch. -/
theorem update_board_rollback_witness :
    taskResult (fun _ => .error (.Stream "boom"))
      (captureFor (update_cache [⟨1, 5, 2⟩] [⟨0, [⟨1, none, some 9⟩]⟩]).1 3
        ⟨1, none, some 9⟩) = ([], some 1) ∧
    ∀ bc pub, update_board ⟨3, [⟨1, 5, 2⟩]⟩ 11 (.ok [⟨0, [⟨1, none, some 9⟩]⟩])
        (fun _ => .error (.Stream "boom")) = .ok (bc, pub) →
      pub = (((update_cache [⟨1, 5, 2⟩] [⟨0, [⟨1, none, some 9⟩]⟩]).2.map (fun s =>
          taskResult (fun _ => .error (.Stream "boom"))
            (captureFor (update_cache [⟨1, 5, 2⟩] [⟨0, [⟨1, none, some 9⟩]⟩]).1 3 s))).map
          Prod.fst).flatten ∧
      bc.last_update_sec = 11 ∧
      lookupThread bc.threads (1 : Int) =
        some ⟨1, (entryFor [⟨1, 5, 2⟩] ⟨1, none, some 9⟩).last_modified,
              (entryFor [⟨1, 5, 2⟩] ⟨1, none, some 9⟩).last_modified⟩ ∧
      (entryFor [⟨1, 5, 2⟩] ⟨1, none, some 9⟩).last_modified <
        (⟨1, none, some 9⟩ : Post).last_modified.getD 0 ∧
      (⟨1, none, some 9⟩ : Post) ∈ (update_cache bc.threads [⟨0, [⟨1, none, some 9⟩]⟩]).2 :=
  update_board_rollback ⟨3, [⟨1, 5, 2⟩]⟩ 11 [⟨0, [⟨1, none, some 9⟩]⟩]
    (fun _ => .error (.Stream "boom")) ⟨1, none, some 9⟩ (.Stream "boom")
    (by decide) (by decide) rfl (by decide)

/-! ### Claim C3 -/

/-- C3 (evidence of a code bug).  The eviction sweep compares
`lastCalled - now > 3600` instead of `now - lastCalled > 3600`, so it can
only remove entries stamped more than an hour in the FUTURE.  Since
`lastCalled` stamps are written as `now` at update time, no reachable entry
is ever evicted: whenever every stamp is at most an hour ahead of the clock,
`cleanup` is the identity — in particular the concrete entry stamped 10000
seconds in the past survives the sweep, contradicting the specified
behaviour. -/
theorem cleanup_no_eviction :
    (∀ (now : Int) (inner : CacheInner),
      (∀ kv ∈ inner.last_called, kv.2 - now ≤ MAX_CACHE_TIME_S) →
      cleanup now inner = inner) ∧
    cleanup 10000 ⟨[(Endpoint.Boards, 0)], [(Endpoint.Boards, .NotModified)]⟩ =
      ⟨[(Endpoint.Boards, 0)], [(Endpoint.Boards, .NotModified)]⟩ := by
  constructor
  · intro now inner hall
    rcases inner with ⟨lc, lr⟩
    have h1 : lc.filter (fun kv => decide (MAX_CACHE_TIME_S < kv.2 - now)) = [] := by
      rw [List.filter_eq_nil_iff]
      intro kv hkv
      simpa using hall kv hkv
    unfold cleanup
    rw [h1]
    simp [List.filter_eq_self]
  · rfl

/-- Witness for the general part of `cleanup_no_eviction` at a concrete
input. -/
theorem cleanup_no_eviction_witness :
    cleanup 10000 ⟨[(Endpoint.Boards, 0), (Endpoint.Threads "g", 9999)], []⟩ =
      ⟨[(Endpoint.Boards, 0), (Endpoint.Threads "g", 9999)], []⟩ :=
  cleanup_no_eviction.1 10000
    ⟨[(Endpoint.Boards, 0), (Endpoint.Threads "g", 9999)], []⟩ (by decide)

/-! ### Claim C4 -/

/-- C4 (evidence of a code bug).  When the threads-summary fetch fails,
`update_board` propagates the error without touching the board cache — but
the `run` loop then evaluates
`self.update_board().await.map_err(|e| error!(..)).unwrap()`, and
`Result::unwrap` of the `Err` panics, killing the worker task (`none` in the
model) instead of sleeping and starting the next cycle as specified. -/
theorem run_cycle_summary_error (cache : BoardCache) (now : Int)
    (e : ApiError) (fetch : Int → Except ApiError Thread) :
    update_board cache now (.error e) fetch = .error e ∧
    run_cycle cache now (.error e) fetch = none :=
  ⟨rfl, rfl⟩

/-! ### Claim C5 -/

/-- C5.  `rate_limit` with configuration `(N, W)` first drops every stored
expiry timestamp that is not in the future (keeps exactly those `> now`);
then, if at least `N` timestamps remain, it computes
`sleep = firstExpiry - now`, appends `now + sleep + W`, and suspends for
`sleep` milliseconds; otherwise it appends `now + W` and returns without
suspending.  (`N ≥ 1` is the constructor's assertion.) -/
theorem rate_limit_spec (rl : RateLimiter) (now : Nat)
    (hpos : 0 < rl.rate_limit_per_interval) :
    (∀ t ∈ rl.timestamps.filter (fun t => now < t), now < t) ∧
    (rl.rate_limit_per_interval ≤ (rl.timestamps.filter (fun t => now < t)).length →
      ∃ f, (rl.timestamps.filter (fun t => now < t)).head? = some f ∧
        rate_limit rl now =
          ({ rl with timestamps := rl.timestamps.filter (fun t => now < t) ++
              [now + (f - now) + rl.interval_duration_ms] }, some (f - now))) ∧
    ((rl.timestamps.filter (fun t => now < t)).length < rl.rate_limit_per_interval →
      rate_limit rl now =
        ({ rl with timestamps := rl.timestamps.filter (fun t => now < t) ++
            [now + rl.interval_duration_ms] }, none)) := by
  refine ⟨?_, ?_, ?_⟩
  · intro t ht
    simpa using (List.mem_filter.mp ht).2
  · intro h
    rcases hts : rl.timestamps.filter (fun t => now < t) with _ | ⟨f, rest⟩
    · rw [hts] at h
      simp only [List.length_nil] at h
      omega
    · refine ⟨f, rfl, ?_⟩
      unfold rate_limit
      rw [hts] at h
      rw [hts]
      dsimp only
      rw [if_pos h]
      rfl
  · intro h
    unfold rate_limit
    rw [if_neg (not_le.mpr h)]

/-- Witness for `rate_limit_spec` at a concrete input: one permit per
1000 ms, one future expiry `50`, clock at `40` — the call must suspend for
10 ms and append `40 + 10 + 1000`. -/
theorem rate_limit_spec_witness :
    0 < (RateLimiter.mk 1 1000 [50]).rate_limit_per_interval ∧
    ((∀ t ∈ ([50] : List Nat).filter (fun t => 40 < t), 40 < t) ∧
    (1 ≤ (([50] : List Nat).filter (fun t => 40 < t)).length →
      ∃ f, (([50] : List Nat).filter (fun t => 40 < t)).head? = some f ∧
        rate_limit (RateLimiter.mk 1 1000 [50]) 40 =
          (RateLimiter.mk 1 1000 (([50] : List Nat).filter (fun t => 40 < t) ++
              [40 + (f - 40) + 1000]), some (f - 40))) ∧
    ((([50] : List Nat).filter (fun t => 40 < t)).length < 1 →
      rate_limit (RateLimiter.mk 1 1000 [50]) 40 =
        (RateLimiter.mk 1 1000 (([50] : List Nat).filter (fun t => 40 < t) ++
            [40 + 1000]), none))) :=
  ⟨by decide, rate_limit_spec (RateLimiter.mk 1 1000 [50]) 40 (by decide)⟩

/-! ### Claim C6: the retry loop -/

theorem gwr_ok (attempt : Nat → Except ApiError ClientResponse) (m r : Nat)
    (resp : ClientResponse) (h : attempt r = .ok resp) :
    getWithRetryAux attempt m r = (.ok resp, [r]) := by
  rw [getWithRetryAux.eq_def, h]

theorem gwr_404 (attempt : Nat → Except ApiError ClientResponse) (m r : Nat)
    (e : ApiError) (h : attempt r = .error e) (h4 : is404 e = true) :
    getWithRetryAux attempt m r = (.error e, [r]) := by
  rw [getWithRetryAux.eq_def, h]
  simp only [h4, if_true]

theorem gwr_cap (attempt : Nat → Except ApiError ClientResponse) (m r : Nat)
    (e : ApiError) (h : attempt r = .error e) (h4 : is404 e = false)
    (hc : m < r + 1) :
    getWithRetryAux attempt m r = (.error e, [r]) := by
  rw [getWithRetryAux.eq_def, h]
  simp only [h4, Bool.false_eq_true, if_false]
  rw [dif_pos hc]

theorem gwr_step (attempt : Nat → Except ApiError ClientResponse) (m r : Nat)
    (e : ApiError) (h : attempt r = .error e) (h4 : is404 e = false)
    (hc : r + 1 ≤ m) :
    getWithRetryAux attempt m r =
      ((getWithRetryAux attempt m (r + 1)).1,
        r :: (getWithRetryAux attempt m (r + 1)).2) := by
  rw [getWithRetryAux.eq_def, h]
  simp only [h4, Bool.false_eq_true, if_false]
  rw [dif_neg (by omega)]

theorem gwr_trace (attempt : Nat → Except ApiError ClientResponse) (m : Nat) :
    ∀ (k r : Nat), m + 1 - r ≤ k →
      ∃ n, 0 < n ∧ (getWithRetryAux attempt m r).2 = List.range' r n := by
  intro k
  induction k with
  | zero =>
    intro r hr
    cases hA : attempt r with
    | ok resp => exact ⟨1, one_pos, by rw [gwr_ok attempt m r resp hA]; rfl⟩
    | error e =>
      cases h4 : is404 e with
      | true => exact ⟨1, one_pos, by rw [gwr_404 attempt m r e hA h4]; rfl⟩
      | false =>
        exact ⟨1, one_pos, by rw [gwr_cap attempt m r e hA h4 (by omega)]; rfl⟩
  | succ k ih =>
    intro r hr
    cases hA : attempt r with
    | ok resp => exact ⟨1, one_pos, by rw [gwr_ok attempt m r resp hA]; rfl⟩
    | error e =>
      cases h4 : is404 e with
      | true => exact ⟨1, one_pos, by rw [gwr_404 attempt m r e hA h4]; rfl⟩
      | false =>
        by_cases hc : m < r + 1
        · exact ⟨1, one_pos, by rw [gwr_cap attempt m r e hA h4 hc]; rfl⟩
        · rcases ih (r + 1) (by omega) with ⟨n, hn, htr⟩
          refine ⟨n + 1, by omega, ?_⟩
          rw [gwr_step attempt m r e hA h4 (by omega), htr, List.range'_succ]

theorem gwr_first404 (attempt : Nat → Except ApiError ClientResponse) (m : Nat) :
    ∀ (k r : Nat) (e : ApiError), r + k ≤ m →
      (∀ j, j < k → ∃ ej, attempt (r + j) = .error ej ∧ is404 ej = false) →
      attempt (r + k) = .error e → is404 e = true →
      getWithRetryAux attempt m r = (.error e, List.range' r (k + 1)) := by
  intro k
  induction k with
  | zero =>
    intro r e _ _ hA h4
    rw [gwr_404 attempt m r e (by simpa using hA) h4]
    rfl
  | succ k ih =>
    intro r e hrm hpre hA h4
    rcases hpre 0 (by omega) with ⟨e0, hA0, h40⟩
    rw [gwr_step attempt m r e0 (by simpa using hA0) h40 (by omega)]
    have hrec := ih (r + 1) e (by omega)
      (fun j hj => by
        have h' := hpre (j + 1) (by omega)
        rw [show r + (j + 1) = r + 1 + j by omega] at h'
        exact h')
      (by rw [show r + 1 + k = r + (k + 1) by omega]; exact hA) h4
    rw [hrec, List.range'_succ]
    rfl

theorem gwr_firstOk (attempt : Nat → Except ApiError ClientResponse) (m : Nat) :
    ∀ (k r : Nat) (resp : ClientResponse), r + k ≤ m →
      (∀ j, j < k → ∃ ej, attempt (r + j) = .error ej ∧ is404 ej = false) →
      attempt (r + k) = .ok resp →
      getWithRetryAux attempt m r = (.ok resp, List.range' r (k + 1)) := by
  intro k
  induction k with
  | zero =>
    intro r resp _ _ hA
    rw [gwr_ok attempt m r resp (by simpa using hA)]
    rfl
  | succ k ih =>
    intro r resp hrm hpre hA
    rcases hpre 0 (by omega) with ⟨e0, hA0, h40⟩
    rw [gwr_step attempt m r e0 (by simpa using hA0) h40 (by omega)]
    have hrec := ih (r + 1) resp (by omega)
      (fun j hj => by
        have h' := hpre (j + 1) (by omega)
        rw [show r + (j + 1) = r + 1 + j by omega] at h'
        exact h')
      (by rw [show r + 1 + k = r + (k + 1) by omega]; exact hA)
    rw [hrec, List.range'_succ]
    rfl

theorem gwr_exhaust (attempt : Nat → Except ApiError ClientResponse) (m : Nat) :
    ∀ (k r : Nat) (e : ApiError), r + k = m →
      (∀ j, j ≤ k → ∃ ej, attempt (r + j) = .error ej ∧ is404 ej = false) →
      attempt m = .error e →
      getWithRetryAux attempt m r = (.error e, List.range' r (k + 1)) := by
  intro k
  induction k with
  | zero =>
    intro r e hrm hpre hA
    rcases hpre 0 (by omega) with ⟨e0, hA0, h40⟩
    have hr : r = m := by omega
    subst hr
    have hA0' : attempt r = .error e0 := by simpa using hA0
    have he : e0 = e := by
      have := hA0'.symm.trans hA
      exact Except.error.inj this
    subst he
    rw [gwr_cap attempt r r e0 hA0' h40 (by omega)]
    rfl
  | succ k ih =>
    intro r e hrm hpre hA
    rcases hpre 0 (by omega) with ⟨e0, hA0, h40⟩
    rw [gwr_step attempt m r e0 (by simpa using hA0) h40 (by omega)]
    have hrec := ih (r + 1) e (by omega)
      (fun j hj => by
        have h' := hpre (j + 1) (by omega)
        rw [show r + (j + 1) = r + 1 + j by omega] at h'
        exact h')
      hA
    rw [hrec, List.range'_succ]
    rfl

/-- C6.  `get_with_retry` with retry cap `m`: the trace of sleeps is
`0, 1, 2, …` seconds — i.e. it sleeps `k` seconds before attempt `k`, the
first attempt being immediate; if attempt `k ≤ m` fails with
`StatusCode "404"` after only retryable failures, the call returns that
error immediately (no further sleeps/attempts); if attempt `k ≤ m` succeeds
after only retryable failures, its value is returned; and if attempts
`0 … m` all fail retryably, the call returns the most recent error (the one
from attempt `m`) — the retry count having exceeded `max_retries`. -/
theorem get_with_retry_spec (attempt : Nat → Except ApiError ClientResponse)
    (m : Nat) :
    (∃ n, 0 < n ∧ (get_with_retry attempt m).2 = List.range n) ∧
    (∀ k e, k ≤ m →
      (∀ j, j < k → ∃ ej, attempt j = .error ej ∧ is404 ej = false) →
      attempt k = .error e → is404 e = true →
      get_with_retry attempt m = (.error e, List.range (k + 1))) ∧
    (∀ k resp, k ≤ m →
      (∀ j, j < k → ∃ ej, attempt j = .error ej ∧ is404 ej = false) →
      attempt k = .ok resp →
      get_with_retry attempt m = (.ok resp, List.range (k + 1))) ∧
    (∀ e, (∀ j, j ≤ m → ∃ ej, attempt j = .error ej ∧ is404 ej = false) →
      attempt m = .error e →
      get_with_retry attempt m = (.error e, List.range (m + 1))) := by
  refine ⟨?_, ?_, ?_, ?_⟩
  · rcases gwr_trace attempt m (m + 1) 0 (by omega) with ⟨n, hn, htr⟩
    exact ⟨n, hn, by rw [List.range_eq_range']; exact htr⟩
  · intro k e hk hpre hA h4
    have := gwr_first404 attempt m k 0 e (by omega)
      (fun j hj => by simpa using hpre j hj) (by simpa using hA) h4
    rw [List.range_eq_range']
    exact this
  · intro k resp hk hpre hA
    have := gwr_firstOk attempt m k 0 resp (by omega)
      (fun j hj => by simpa using hpre j hj) (by simpa using hA)
    rw [List.range_eq_range']
    exact this
  · intro e hpre hA
    have := gwr_exhaust attempt m m 0 e (by omega)
      (fun j hj => by simpa using hpre j hj) hA
    rw [List.range_eq_range']
    exact this

/-- Witness for `get_with_retry_spec`: the first attempt fails with a
retryable error, the second succeeds; the loop sleeps 0 s then 1 s and
returns the success. -/
theorem get_with_retry_spec_witness :
    get_with_retry (fun j => if j = 0 then .error (.Stream "x") else .ok .NotModified) 3 =
      (.ok .NotModified, List.range 2) :=
  (get_with_retry_spec (fun j => if j = 0 then .error (.Stream "x") else .ok .NotModified) 3).2.2.1
    1 .NotModified (by omega)
    (fun j hj => by
      have hj0 : j = 0 := by omega
      subst hj0
      exact ⟨.Stream "x", rfl, rfl⟩)
    rfl

/-! ### Lemmas about the response-cache association lists -/

theorem lookupA_insertA_self {β : Type} (m : List (Endpoint × β))
    (k : Endpoint) (v : β) : lookupA (insertA m k v) k = some v := by
  unfold lookupA insertA
  rw [List.find?_cons]
  simp

theorem lookupA_filter_of_ne {β : Type} (m : List (Endpoint × β))
    (k k' : Endpoint) (hne : k' ≠ k) :
    lookupA (m.filter (fun kv => !(kv.1 == k))) k' = lookupA m k' := by
  induction m with
  | nil => rfl
  | cons kv rest ih =>
    rw [List.filter_cons]
    by_cases hc : kv.1 = k
    · have hb : (!(kv.1 == k)) = false := by simp [hc]
      have hk' : (kv.1 == k') = false := by simp [hc, Ne.symm hne]
      simp only [hb, Bool.false_eq_true, if_false]
      unfold lookupA
      rw [List.find?_cons]
      simp only [hk']
      exact ih
    · have hb : (!(kv.1 == k)) = true := by simp [hc]
      simp only [hb, if_true]
      unfold lookupA
      rw [List.find?_cons, List.find?_cons]
      cases hk' : (kv.1 == k')
      · exact ih
      · rfl

theorem lookupA_insertA_other {β : Type} (m : List (Endpoint × β))
    (k k' : Endpoint) (v : β) (hne : k' ≠ k) :
    lookupA (insertA m k v) k' = lookupA m k' := by
  have hb : (k == k') = false := by simp [Ne.symm hne]
  unfold insertA lookupA
  rw [List.find?_cons]
  simp only [hb]
  exact lookupA_filter_of_ne m k k' hne

/-! ### Claim C7 -/

/-- C7.  A 304 with a cached payload returns `Ok` of exactly the cached
payload, and the payload the cache holds is the one stored by the most
recent 200: after a 200 whose body parsed to `p`, the cache holds `p` for
that endpoint and a subsequent 304 returns `Ok p` (leaving the cache
unchanged). -/
theorem handle_response_not_modified_spec (cache : CacheInner) (e : Endpoint)
    (now now2 : Int) (p r : ClientResponse)
    (pp pp2 : Except ApiError ClientResponse) :
    (lookupA cache.last_response e = some r →
      handle_response cache e now .notModified pp = some (.ok r, cache)) ∧
    (∀ res c1, handle_response cache e now .ok (.ok p) = some (res, c1) →
      res = .ok p ∧ lookupA c1.last_response e = some p ∧
      handle_response c1 e now2 .notModified pp2 = some (.ok p, c1)) := by
  constructor
  · intro h
    unfold handle_response
    rw [h]
  · intro res c1 h
    unfold handle_response at h
    have h1 := Option.some.inj h
    have hres : res = .ok p := ((Prod.ext_iff.mp h1).1).symm
    have hc1 : c1 = handle_update cache e now p := ((Prod.ext_iff.mp h1).2).symm
    have hcached : lookupA c1.last_response e = some p := by
      rw [hc1]
      exact lookupA_insertA_self cache.last_response e p
    refine ⟨hres, hcached, ?_⟩
    unfold handle_response
    rw [hcached]

/-- Witness for `handle_response_not_modified_spec`: a 200 storing
`NotModified`-payload for `Boards`, then a 304 replaying it. -/
theorem handle_response_not_modified_spec_witness :
    (Except.ok ClientResponse.NotModified : Except ApiError ClientResponse) =
      .ok .NotModified ∧
    lookupA (handle_update ⟨[], []⟩ Endpoint.Boards 0 .NotModified).last_response
      Endpoint.Boards = some .NotModified ∧
    handle_response (handle_update ⟨[], []⟩ Endpoint.Boards 0 .NotModified)
      Endpoint.Boards 5 .notModified (.error .InvalidResponse) =
      some (.ok .NotModified, handle_update ⟨[], []⟩ Endpoint.Boards 0 .NotModified) :=
  (handle_response_not_modified_spec ⟨[], []⟩ Endpoint.Boards 0 5 .NotModified
      .NotModified (.error .InvalidResponse) (.error .InvalidResponse)).2
    (.ok .NotModified) (handle_update ⟨[], []⟩ Endpoint.Boards 0 .NotModified) rfl

/-! ### Claim C8 -/

/-- C8 (evidence of a code bug).  A 304 for an endpoint with no cached
payload makes `handle_response` evaluate
`Ok(self.cache.last_response(endpoint.clone()).await.unwrap())`
(client.rs line 135): `Option::unwrap` of `None` panics (modelled `none`),
instead of returning `Err(InvalidResponse)` as the claim and the spec's
error taxonomy state. -/
theorem handle_response_304_no_cache (e : Endpoint) (now : Int)
    (pp : Except ApiError ClientResponse) :
    handle_response ⟨[], []⟩ e now .notModified pp = none :=
  rfl

/-! ### Claim C9 -/

/-- C9.  The request built by `new_request` carries `If-Modified-Since` if
and only if the cache holds a `lastCalled` stamp for the endpoint, and the
header value is that stamp rendered by `to_rfc2822`; the stamp is written
exactly by the 200-with-successful-parse path of `handle_response` (which
sets it to the current time, leaving other endpoints alone) — every other
path leaves the `lastCalled` map unchanged. -/
theorem if_modified_since_spec (cache : CacheInner) (e e2 : Endpoint)
    (fmt : Int → String) (now : Int) (p : ClientResponse) :
    (∀ s, (new_request cache e fmt).if_modified_since = some s ↔
      ∃ t, lookupA cache.last_called e = some t ∧ s = fmt t) ∧
    ((new_request cache e fmt).if_modified_since = none ↔
      lookupA cache.last_called e = none) ∧
    lookupA (handle_update cache e now p).last_called e = some now ∧
    (e2 ≠ e → lookupA (handle_update cache e now p).last_called e2 =
      lookupA cache.last_called e2) ∧
    (∀ status pp res c1,
      handle_response cache e now status pp = some (res, c1) →
      c1 = cache ∨
        ∃ q, status = .ok ∧ pp = .ok q ∧ c1 = handle_update cache e now q) := by
  refine ⟨?_, ?_, ?_, ?_, ?_⟩
  · intro s
    unfold new_request
    cases h : lookupA cache.last_called e with
    | none => simp [h]
    | some t0 => simp [h, eq_comm]
  · unfold new_request
    cases h : lookupA cache.last_called e with
    | none => simp [h]
    | some t0 => simp [h]
  · exact lookupA_insertA_self cache.last_called e now
  · intro hne
    exact lookupA_insertA_other cache.last_called e e2 now hne
  · intro status pp res c1 h
    cases status with
    | ok =>
      cases pp with
      | ok q =>
        unfold handle_response at h
        have h1 := Option.some.inj h
        exact Or.inr ⟨q, rfl, rfl, ((Prod.ext_iff.mp h1).2).symm⟩
      | error e' =>
        unfold handle_response at h
        have h1 := Option.some.inj h
        exact Or.inl ((Prod.ext_iff.mp h1).2).symm
    | notModified =>
      unfold handle_response at h
      cases hl : lookupA cache.last_response e with
      | none =>
        rw [hl] at h
        cases h
      | some r =>
        rw [hl] at h
        have h1 := Option.some.inj h
        exact Or.inl ((Prod.ext_iff.mp h1).2).symm
    | other code =>
      unfold handle_response at h
      have h1 := Option.some.inj h
      exact Or.inl ((Prod.ext_iff.mp h1).2).symm

/-- Witness for `if_modified_since_spec` at a concrete cache holding a
stamp 42 for `Boards`. -/
theorem if_modified_since_spec_witness :
    (∀ s, (new_request ⟨[(Endpoint.Boards, 42)], []⟩ Endpoint.Boards toString).if_modified_since =
        some s ↔
      ∃ t, lookupA ([(Endpoint.Boards, 42)] : List (Endpoint × Int)) Endpoint.Boards =
        some t ∧ s = toString t) ∧
    ((new_request ⟨[(Endpoint.Boards, 42)], []⟩ Endpoint.Boards toString).if_modified_since =
        none ↔
      lookupA ([(Endpoint.Boards, 42)] : List (Endpoint × Int)) Endpoint.Boards = none) ∧
    lookupA (handle_update ⟨[(Endpoint.Boards, 42)], []⟩ Endpoint.Boards 43
        .NotModified).last_called Endpoint.Boards = some 43 ∧
    (Endpoint.Threads "g" ≠ Endpoint.Boards →
      lookupA (handle_update ⟨[(Endpoint.Boards, 42)], []⟩ Endpoint.Boards 43
          .NotModified).last_called (Endpoint.Threads "g") =
        lookupA ([(Endpoint.Boards, 42)] : List (Endpoint × Int)) (Endpoint.Threads "g")) ∧
    (∀ status pp res c1,
      handle_response ⟨[(Endpoint.Boards, 42)], []⟩ Endpoint.Boards 43 status pp =
        some (res, c1) →
      c1 = ⟨[(Endpoint.Boards, 42)], []⟩ ∨
        ∃ q, status = .ok ∧ pp = .ok q ∧
          c1 = handle_update ⟨[(Endpoint.Boards, 42)], []⟩ Endpoint.Boards 43 q) :=
  if_modified_since_spec ⟨[(Endpoint.Boards, 42)], []⟩ Endpoint.Boards
    (Endpoint.Threads "g") toString 43 .NotModified

/-! ### Claim C10 -/

/-- C10.  The board worker's new-post filter publishes a post exactly when
its `time` field is present and strictly greater than the captured
`prevLastModified`; consequently, a post with no `time` field is never
published by any `update_board` cycle. -/
theorem new_post_filter_spec :
    (∀ (th : Thread) (c : ThreadCache) (p : Post),
      p ∈ newPostsFor th c ↔
        p ∈ th.posts ∧ ∃ tm, p.time = some tm ∧ c.prev_last_modified < tm) ∧
    (∀ (cache : BoardCache) (now : Int) (pages : List ThreadPage)
        (fetch : Int → Except ApiError Thread) (bc : BoardCache) (pub : List Post),
      update_board cache now (.ok pages) fetch = .ok (bc, pub) →
      ∀ p ∈ pub, p.time ≠ none) := by
  constructor
  · intro th c p
    unfold newPostsFor
    rw [List.mem_filter]
    cases h : p.time with
    | none => simp [h]
    | some tm => simp [h]
  · intro cache now pages fetch bc pub hub p hp
    have heq : update_board cache now (.ok pages) fetch =
        .ok (⟨now, ((((update_cache cache.threads pages).2.map (fun s =>
              taskResult fetch
                (captureFor (update_cache cache.threads pages).1 cache.last_update_sec s))).map
              Prod.snd).foldl applyRollback (update_cache cache.threads pages).1)⟩,
          (((update_cache cache.threads pages).2.map (fun s =>
              taskResult fetch
                (captureFor (update_cache cache.threads pages).1 cache.last_update_sec s))).map
              Prod.fst).flatten) := rfl
    rw [heq] at hub
    have hpub : pub = (((update_cache cache.threads pages).2.map (fun s =>
        taskResult fetch
          (captureFor (update_cache cache.threads pages).1 cache.last_update_sec s))).map
        Prod.fst).flatten :=
      ((Prod.ext_iff.mp (Except.ok.inj hub)).2).symm
    rw [hpub] at hp
    rcases List.mem_flatten.mp hp with ⟨l, hl, hpl⟩
    rcases List.mem_map.mp hl with ⟨pr, hpr, rfl⟩
    rcases List.mem_map.mp hpr with ⟨s, hs, rfl⟩
    cases hf : fetch (captureFor (update_cache cache.threads pages).1
        cache.last_update_sec s).no with
    | ok th =>
      have hfst : (taskResult fetch (captureFor (update_cache cache.threads pages).1
          cache.last_update_sec s)).1 =
          newPostsFor th (captureFor (update_cache cache.threads pages).1
            cache.last_update_sec s) := by
        unfold taskResult
        rw [hf]
      rw [hfst] at hpl
      unfold newPostsFor at hpl
      have hflt := (List.mem_filter.mp hpl).2
      cases hpt : p.time with
      | none =>
        rw [hpt] at hflt
        simp at hflt
      | some tm => simp [hpt]
    | error err =>
      have hfst : (taskResult fetch (captureFor (update_cache cache.threads pages).1
          cache.last_update_sec s)).1 = [] := by
        unfold taskResult
        rw [hf]
      rw [hfst] at hpl
      cases hpl

/-- Witness for `new_post_filter_spec`: a cycle that publishes a post with
`time = Some 10` — applying the no-absent-`time` conclusion to it. -/
theorem new_post_filter_spec_witness :
    (⟨1, some 10, none⟩ : Post).time ≠ none :=
  new_post_filter_spec.2 ⟨0, []⟩ 7 [⟨0, [⟨1, none, some 5⟩]⟩]
    (fun _ => .ok ⟨[⟨1, some 10, none⟩]⟩) ⟨7, [⟨1, 5, 0⟩]⟩ [⟨1, some 10, none⟩]
    rfl ⟨1, some 10, none⟩ (by decide)

end Rchan
